import Mathlib

/-!
Verification of the TemporalDict repository (`temporal/main.py`).

The embedding models `TemporalBuffer` over an arbitrary record type `α`
(Python state records are opaque dicts; the spec treats them as opaque blobs).
The underlying `collections.deque` with `maxlen` is modelled as a `List α`
kept oldest-first, and the dropped-on-overflow behaviour is made explicit in
`dequeAppend`.  `LimitedDict` lives in `temporal/util.py`, which is not part
of the sources; it is modelled from the spec (section 4.1, BoundedKeyIndex).
-/

namespace TemporalDict

/-- Error kinds raised by the buffer operations: Python `IndexError`
(the spec's IndexOutOfRange / EmptyBuffer), `KeyError` (KeyNotFound) and
`NotImplementedError` (NotImplemented / NotSupported). -/
inductive BufErr where
  | indexError : BufErr
  | keyNotFound : BufErr
  | notImplemented : BufErr
deriving DecidableEq

/-- Result of an operation that either returns a value or raises. -/
inductive OpResult (α : Type) where
  | ok : α → OpResult α
  | err : BufErr → OpResult α
deriving DecidableEq

/-- Modelled from the spec: `LimitedDict` is defined in `temporal/util.py`,
which is absent from the sources; spec section 4.1 (BoundedKeyIndex) specifies
`set(key, value)`: insert or overwrite; overwriting keeps the key's
insertion-order position; if the key is new and size equals capacity, the
single oldest-inserted key is evicted before inserting.  The dictionary is
modelled as an association list in insertion order, oldest first. -/
def LimitedDict.set {α : Type} (cap : Nat) (d : List (String × α)) (k : String)
    (v : α) : List (String × α) :=
  if d.any (fun p => p.1 == k) then
    d.map (fun p => if p.1 == k then (k, v) else p)
  else if d.length = cap then
    d.drop 1 ++ [(k, v)]
  else
    d ++ [(k, v)]

/-- Modelled from the spec: `get(key, default)` returns the stored value or
the default if absent, never raising (section 4.1); here the default `None`
becomes `Option.none`. -/
def LimitedDict.get {α : Type} (d : List (String × α)) (k : String) : Option α :=
  (d.find? (fun p => p.1 == k)).map Prod.snd

/-- Modelled from the spec: `delete(key)` removes the key and fails with
KeyNotFound if it is absent (section 4.1). -/
def LimitedDict.delete {α : Type} (d : List (String × α)) (k : String) :
    Option (List (String × α)) :=
  if d.any (fun p => p.1 == k) then some (d.eraseP (fun p => p.1 == k)) else none

/-- Appending to a `collections.deque` with a fixed `maxlen`: the new element
goes to the live end and, if the deque is at capacity, the oldest element is
dropped from the other end. -/
def dequeAppend {α : Type} (maxlen : Nat) (buf : List α) (x : α) : List α :=
  (buf ++ [x]).drop (buf.length + 1 - maxlen)

/-- The state of a `TemporalBuffer`: the deque (`buffer`, oldest first, with
its `maxlen`), the `LimitedDict` keyed by temporal id (`id_index`), and the
vestigial `current_index` cursor. -/
structure TemporalBuffer (α : Type) where
  maxlen : Nat
  buffer : List α
  id_index : List (String × α)
  current_index : Int
deriving DecidableEq

namespace TemporalBuffer

/-- `TemporalBuffer.__init__(temporal_depth)`: empty deque with
`maxlen = temporal_depth`, empty `LimitedDict` of the same capacity, and
`current_index = -1`. -/
def init {α : Type} (temporal_depth : Nat) : TemporalBuffer α :=
  { maxlen := temporal_depth
    buffer := []
    id_index := []
    current_index := -1 }

/-- `TemporalBuffer.add(id, state)`: writes the state into the id index,
advances `current_index` (wrapping modulo `maxlen` once the deque is full,
mirroring the `len(self.buffer) == self.buffer.maxlen` check made before the
append), then appends the state to the deque.  Python would raise
`ZeroDivisionError` on the modulo when `maxlen` is `0`; the spec fixes the
capacity at `≥ 1`, and every theorem about `add` assumes that. -/
def add {α : Type} (b : TemporalBuffer α) (id : String) (state : α) :
    TemporalBuffer α :=
  { b with
    id_index := LimitedDict.set b.maxlen b.id_index id state
    current_index :=
      if b.buffer.length = b.maxlen then
        (b.current_index + 1) % (b.maxlen : Int)
      else
        b.current_index + 1
    buffer := dequeAppend b.maxlen b.buffer state }

/-- Folds a whole call sequence of `add`s (oldest call first) into a buffer. -/
def addAll {α : Type} (b : TemporalBuffer α) (calls : List (String × α)) :
    TemporalBuffer α :=
  calls.foldl (fun acc c => acc.add c.1 c.2) b

/-- The kinds of key Python callers can pass to `__getitem__`: an `int`, a
`str`, a `slice`, or a value of any other type (e.g. a `float`). -/
inductive Key where
  | int : Int → Key
  | str : String → Key
  | slice : Key
  | other : Key
deriving DecidableEq

/-- Outcome of `__getitem__`: a record, Python `None` (absent id), or one of
the raised errors `IndexError`, `NotImplementedError`, `TypeError`. -/
inductive GetItemResult (α : Type) where
  | val : α → GetItemResult α
  | noneVal : GetItemResult α
  | indexOutOfRange : GetItemResult α
  | notSupported : GetItemResult α
  | invalidArgumentType : GetItemResult α
deriving DecidableEq

/-- `TemporalBuffer.__getitem__(index)`: an `int` index is replaced by its
absolute value, range-checked against the deque length, and read as
`self.buffer[-1 - index]` (distance from the live end); a `slice` raises
`NotImplementedError`; a `str` is looked up via `id_index.get(key, None)`;
anything else raises `TypeError`. -/
def getitem {α : Type} (b : TemporalBuffer α) : Key → GetItemResult α
  | Key.int i =>
    let d := i.natAbs
    if h : d < b.buffer.length then
      GetItemResult.val (b.buffer.get ⟨b.buffer.length - 1 - d, by omega⟩)
    else
      GetItemResult.indexOutOfRange
  | Key.slice => GetItemResult.notSupported
  | Key.str s =>
    match LimitedDict.get b.id_index s with
    | some v => GetItemResult.val v
    | none => GetItemResult.noneVal
  | Key.other => GetItemResult.invalidArgumentType

/-- `TemporalBuffer.get_last_n_states(n)` is `list(self.buffer)[-n:]`; the
Python slice `lst[s:]` with `s = -n` clamps a negative start at `0` and a
start past the end at the length. -/
def get_last_n_states {α : Type} (b : TemporalBuffer α) (n : Int) : List α :=
  let s : Int := -n
  b.buffer.drop (if s < 0 then ((b.buffer.length : Int) + s).toNat else s.toNat)

/-- `TemporalBuffer.current` is `self.buffer[-1]`, which raises `IndexError`
on an empty deque (the spec's EmptyBuffer condition). -/
def current {α : Type} (b : TemporalBuffer α) : OpResult α :=
  match b.buffer.getLast? with
  | some v => OpResult.ok v
  | none => OpResult.err BufErr.indexError

/-- `TemporalBuffer.move_forward()`: unconditionally raises
`NotImplementedError`; the state is returned untouched because the raise is
the whole body. -/
def move_forward {α : Type} (b : TemporalBuffer α) :
    OpResult α × TemporalBuffer α :=
  (OpResult.err BufErr.notImplemented, b)

/-- `TemporalBuffer.move_backward()`: unconditionally raises
`NotImplementedError`; the state is returned untouched. -/
def move_backward {α : Type} (b : TemporalBuffer α) :
    OpResult α × TemporalBuffer α :=
  (OpResult.err BufErr.notImplemented, b)

/-- `TemporalBuffer.__call__(index)` with an integer argument: raises
`IndexError` if the deque is empty, otherwise indexes the deque directly with
raw Python semantics — non-negative indices count from the oldest end,
negative ones from the live end, and the deque raises `IndexError` when out
of range. -/
def call {α : Type} (b : TemporalBuffer α) (i : Int) : OpResult α :=
  if b.buffer.length = 0 then OpResult.err BufErr.indexError
  else
    let j : Int := if i < 0 then (b.buffer.length : Int) + i else i
    if h : 0 ≤ j ∧ j < (b.buffer.length : Int) then
      OpResult.ok (b.buffer.get ⟨j.toNat, by omega⟩)
    else OpResult.err BufErr.indexError

/-- `TemporalBuffer.__setitem__(key, value)`: a direct write into the id
index, bypassing the deque (the spec's `set_index_entry`). -/
def setitem {α : Type} (b : TemporalBuffer α) (k : String) (v : α) :
    TemporalBuffer α :=
  { b with id_index := LimitedDict.set b.maxlen b.id_index k v }

/-- `TemporalBuffer.__delitem__(key)`: `del self.id_index[key]`, raising
`KeyError` when the key is absent (the spec's `delete_index_entry`). -/
def delitem {α : Type} (b : TemporalBuffer α) (k : String) :
    OpResult (TemporalBuffer α) :=
  match LimitedDict.delete b.id_index k with
  | some d => OpResult.ok { b with id_index := d }
  | none => OpResult.err BufErr.keyNotFound

/-- `TemporalBuffer.__len__()` is the deque length. -/
def length {α : Type} (b : TemporalBuffer α) : Nat :=
  b.buffer.length

end TemporalBuffer

open TemporalBuffer

/-- The spec section 8 example: capacity 3, four adds.  Used as the concrete
input of the witness theorems. -/
def sample : TemporalBuffer Nat :=
  addAll (init 3) [("id1", 10), ("id2", 20), ("id3", 30), ("id4", 40)]

example : sample.buffer = [20, 30, 40] := by decide
example : sample.id_index = [("id2", 20), ("id3", 30), ("id4", 40)] := by decide
example : sample.current_index = 0 := by decide

/-- An in-range integer read returns the record `|i|` steps behind the most
recent one (the source computes `self.buffer[-1 - abs(index)]`). -/
theorem getitem_int_eq {α : Type} (b : TemporalBuffer α) (i : Int)
    (h : i.natAbs < b.buffer.length) :
    getitem b (Key.int i)
      = GetItemResult.val (b.buffer.get ⟨b.buffer.length - 1 - i.natAbs, by omega⟩) := by
  simp only [getitem]
  rw [dif_pos h]

/-- An out-of-range integer read raises `IndexError`. -/
theorem getitem_int_oob {α : Type} (b : TemporalBuffer α) (i : Int)
    (h : b.buffer.length ≤ i.natAbs) :
    getitem b (Key.int i) = GetItemResult.indexOutOfRange := by
  simp only [getitem]
  rw [dif_neg (by omega)]

/-- Looking up a key that is in no entry of the association list misses. -/
theorem ld_get_of_not_mem {α : Type} (d : List (String × α)) (s : String)
    (h : s ∉ d.map Prod.fst) :
    LimitedDict.get d s = none := by
  unfold LimitedDict.get
  rw [List.find?_eq_none.mpr]
  · rfl
  · intro p hp
    simp only [beq_iff_eq]
    intro hps
    exact h (List.mem_map.mpr ⟨p, hp, hps⟩)

/-- C2: for every buffer state, `buffer[0]` returns the most recently added
record, and for every integer `d` with `1 ≤ d <` length, `buffer[d]` and
`buffer[-d]` return the identical record, the one `d` steps behind the most
recent. -/
theorem C2_abs_index_collapse {α : Type} (b : TemporalBuffer α) :
    (∀ h0 : 0 < b.buffer.length,
       getitem b (Key.int 0)
         = GetItemResult.val (b.buffer.get ⟨b.buffer.length - 1, by omega⟩)) ∧
    (∀ d : Int, (h1 : 1 ≤ d) → (h2 : d < (b.buffer.length : Int)) →
       getitem b (Key.int (-d)) = getitem b (Key.int d) ∧
       getitem b (Key.int d)
         = GetItemResult.val
             (b.buffer.get ⟨b.buffer.length - 1 - d.natAbs, by omega⟩)) := by
  refine ⟨?_, ?_⟩
  · intro h0
    exact getitem_int_eq b 0 (by omega)
  · intro d h1 h2
    refine ⟨?_, getitem_int_eq b d (by omega)⟩
    simp only [getitem, Int.natAbs_neg]

/-- Witness for C2 at the spec's capacity-3 example: `sample[2]`,
`sample[-2]` and `sample[0]`. -/
theorem C2_witness :
    (1 : Int) ≤ 2 ∧ (2 : Int) < (sample.buffer.length : Int) ∧
    getitem sample (Key.int 0) = GetItemResult.val 40 ∧
    getitem sample (Key.int (-2)) = getitem sample (Key.int 2) ∧
    getitem sample (Key.int 2) = GetItemResult.val 20 := by
  have h := C2_abs_index_collapse sample
  have hd := h.2 2 (by decide) (by decide)
  refine ⟨by decide, by decide, ?_, hd.1, ?_⟩
  · rw [h.1 (by decide)]
    decide
  · rw [hd.2]
    decide

/-- C3: for every buffer state and integer `i`, the read `buffer[i]` raises
`IndexError` exactly when `|i| ≥` length, and otherwise returns a record. -/
theorem C3_positional_range_check {α : Type} (b : TemporalBuffer α) (i : Int) :
    (getitem b (Key.int i) = GetItemResult.indexOutOfRange
       ↔ b.buffer.length ≤ i.natAbs) ∧
    (i.natAbs < b.buffer.length
       → ∃ v, getitem b (Key.int i) = GetItemResult.val v) := by
  constructor
  · constructor
    · intro h
      by_contra hlt
      push_neg at hlt
      rw [getitem_int_eq b i hlt] at h
      cases h
    · exact getitem_int_oob b i
  · intro h
    exact ⟨_, getitem_int_eq b i h⟩

/-- Witness for C3: on the spec example, index 5 is out of range, index 1
is in range. -/
theorem C3_witness :
    getitem sample (Key.int 5) = GetItemResult.indexOutOfRange ∧
    (∃ v, getitem sample (Key.int 1) = GetItemResult.val v) :=
  ⟨(C3_positional_range_check sample 5).1.mpr (by decide),
   (C3_positional_range_check sample 1).2 (by decide)⟩

/-- C4: a slice read raises `NotImplementedError`, a read with any other key
kind raises `TypeError`, and a string read of an absent identifier returns
`None` rather than raising. -/
theorem C4_getitem_dispatch {α : Type} (b : TemporalBuffer α) (s : String)
    (habs : s ∉ b.id_index.map Prod.fst) :
    getitem b Key.slice = GetItemResult.notSupported ∧
    getitem b Key.other = GetItemResult.invalidArgumentType ∧
    getitem b (Key.str s) = GetItemResult.noneVal := by
  refine ⟨rfl, rfl, ?_⟩
  simp only [getitem, ld_get_of_not_mem b.id_index s habs]

/-- Witness for C4 at the spec example with the evicted id "id1". -/
theorem C4_witness :
    "id1" ∉ sample.id_index.map Prod.fst ∧
    getitem sample Key.slice = GetItemResult.notSupported ∧
    getitem sample Key.other = GetItemResult.invalidArgumentType ∧
    getitem sample (Key.str "id1") = GetItemResult.noneVal :=
  ⟨by decide, C4_getitem_dispatch sample "id1" (by decide)⟩

/-- C5 counterexample: the claim quantifies over every `n`, but
`get_last_n_states(0)` is `list(buffer)[-0:]`, which is the whole buffer,
not the last zero records: on a capacity-3 buffer holding one record it
returns that record instead of the empty list. -/
theorem C5_counterexample :
    get_last_n_states (addAll (init 3) [("id1", (10 : Nat))]) 0 = [10] ∧
    get_last_n_states (addAll (init 3) [("id1", (10 : Nat))]) 0 ≠ [] := by
  decide

/-- C5 amended: for every `n ≥ 1`, `get_last_n_states n` returns the last
`min n m` records in oldest-to-newest order (the suffix of the buffer), and
when `n` exceeds the length it returns the whole buffer with no error. -/
theorem C5_get_last_n_amended {α : Type} (b : TemporalBuffer α) (n : Int)
    (h : 1 ≤ n) :
    get_last_n_states b n = b.buffer.drop (b.buffer.length - n.toNat) ∧
    ((b.buffer.length : Int) ≤ n → get_last_n_states b n = b.buffer) := by
  simp only [get_last_n_states]
  rw [if_pos (by omega : -n < 0)]
  constructor
  · congr 1
    omega
  · intro hle
    rw [show ((b.buffer.length : Int) + -n).toNat = 0 by omega]
    rfl

/-- Witness for C5 at the spec example: the last 2 of 3 records,
oldest-first. -/
theorem C5_witness :
    (1 : Int) ≤ 2 ∧
    (get_last_n_states sample 2
       = sample.buffer.drop (sample.buffer.length - (2 : Int).toNat) ∧
     ((sample.buffer.length : Int) ≤ 2 → get_last_n_states sample 2 = sample.buffer)) :=
  ⟨by decide, C5_get_last_n_amended sample 2 (by decide)⟩

/-- C6: `current` returns the most recently added record of a non-empty
buffer (in particular the record just passed to `add`, for positive
capacity), and raises on an empty buffer instead of returning a value. -/
theorem C6_current_accessor {α : Type} (b : TemporalBuffer α) :
    (b.buffer.length = 0 → current b = OpResult.err BufErr.indexError) ∧
    (∀ h : b.buffer ≠ [], current b = OpResult.ok (b.buffer.getLast h)) ∧
    (1 ≤ b.maxlen → ∀ id st, current (add b id st) = OpResult.ok st) := by
  refine ⟨?_, ?_, ?_⟩
  · intro h
    rw [List.length_eq_zero] at h
    simp [current, h]
  · intro h
    simp [current, List.getLast?_eq_getLast _ h]
  · intro hcap id st
    simp only [current, add, dequeAppend]
    rw [List.drop_append_of_le_length (by omega)]
    simp [List.getLast?_concat]

/-- Witness for C6: on the spec example `current` is the fourth add's
record, and adding a fifth makes that record current. -/
theorem C6_witness :
    (sample.buffer.length = 0 → current sample = OpResult.err BufErr.indexError) ∧
    ((sample.buffer ≠ []) ∧ current sample = OpResult.ok 40) ∧
    (1 ≤ sample.maxlen ∧ current (add sample "id5" 50) = OpResult.ok 50) := by
  have h := C6_current_accessor sample
  refine ⟨h.1, ⟨by decide, ?_⟩, by decide, h.2.2 (by decide) "id5" 50⟩
  rw [h.2.1 (by decide)]
  decide

/-- C9: `move_forward` and `move_backward` always raise
`NotImplementedError` and leave the whole buffer state unchanged. -/
theorem C9_cursor_stubs {α : Type} (b : TemporalBuffer α) :
    move_forward b = (OpResult.err BufErr.notImplemented, b) ∧
    move_backward b = (OpResult.err BufErr.notImplemented, b) :=
  ⟨rfl, rfl⟩

/-- C10: calling the buffer object itself raises `IndexError` when empty,
and otherwise indexes the deque with raw semantics: `buffer(0)` is the
oldest retained record (the opposite end from `buffer[0]`, the newest),
negative arguments count from the newest end with no absolute-value
collapsing, and the only range check is the deque's own. -/
theorem C10_call_raw_indexing {α : Type} (b : TemporalBuffer α) :
    (b.buffer.length = 0 → call b 0 = OpResult.err BufErr.indexError) ∧
    (∀ h2 : 2 ≤ b.buffer.length,
       call b 0 = OpResult.ok (b.buffer.get ⟨0, by omega⟩) ∧
       getitem b (Key.int 0)
         = GetItemResult.val (b.buffer.get ⟨b.buffer.length - 1, by omega⟩)) ∧
    (∀ i : Int, (hn : i < 0) → (hge : 0 ≤ (b.buffer.length : Int) + i) →
       call b i
         = OpResult.ok (b.buffer.get ⟨((b.buffer.length : Int) + i).toNat, by omega⟩)) ∧
    (∀ i : Int, (b.buffer.length : Int) ≤ i → 0 < b.buffer.length →
       call b i = OpResult.err BufErr.indexError) := by
  refine ⟨?_, ?_, ?_, ?_⟩
  · intro h
    simp [call, h]
  · intro h2
    constructor
    · simp only [call]
      split_ifs <;> first | rfl | (exfalso; omega)
    · exact getitem_int_eq b 0 (by omega)
  · intro i hn hge
    simp only [call]
    split_ifs <;> first | rfl | (exfalso; omega)
  · intro i hile hpos
    simp only [call]
    split_ifs <;> first | rfl | (exfalso; omega)

/-- Witness for C10 at the spec example: `sample(0)` is the oldest record 20
while `sample[0]` is the newest 40, and `sample(-1)` is 40. -/
theorem C10_witness :
    (2 ≤ sample.buffer.length) ∧
    call sample 0 = OpResult.ok 20 ∧
    getitem sample (Key.int 0) = GetItemResult.val 40 ∧
    call sample (-1) = OpResult.ok 40 := by
  have h := C10_call_raw_indexing sample
  have h2 := h.2.1 (by decide)
  refine ⟨by decide, ?_, ?_, ?_⟩
  · rw [h2.1]
    decide
  · rw [h2.2]
    decide
  · rw [h.2.2.1 (-1) (by decide) (by decide)]
    decide

/-- `add` never changes the capacity, so neither does a whole call
sequence. -/
theorem addAll_maxlen {α : Type} (b : TemporalBuffer α)
    (calls : List (String × α)) : (addAll b calls).maxlen = b.maxlen := by
  induction calls generalizing b with
  | nil => rfl
  | cons c cs ih => simpa [addAll, List.foldl_cons] using ih (b.add c.1 c.2)

/-- Splitting the last call off a call sequence. -/
theorem addAll_append {α : Type} (b : TemporalBuffer α)
    (l : List (String × α)) (c : String × α) :
    addAll b (l ++ [c]) = add (addAll b l) c.1 c.2 := by
  simp [addAll, List.foldl_append]

/-- After any call sequence on a fresh positive-capacity buffer, the deque
holds exactly the most recent `min count N` states, in insertion order. -/
theorem addAll_buffer {α : Type} (N : Nat) (hN : 1 ≤ N)
    (calls : List (String × α)) :
    (addAll (init N : TemporalBuffer α) calls).buffer
      = (calls.map Prod.snd).drop (calls.length - N) := by
  induction calls using List.reverseRecOn with
  | nil => simp [addAll, init]
  | append_singleton l c ih =>
    rw [addAll_append]
    have hmax : (addAll (init N : TemporalBuffer α) l).maxlen = N :=
      addAll_maxlen _ _
    show dequeAppend _ _ _ = _
    rw [dequeAppend, hmax, ih, List.length_drop, List.map_append,
      List.length_append]
    simp only [List.length_map, List.map_cons, List.map_nil,
      List.length_singleton]
    rcases Nat.lt_or_ge l.length N with h | h
    · rw [show l.length - N = 0 by omega]
      simp only [List.drop_zero]
      rw [show l.length - 0 + 1 - N = l.length + 1 - N by omega]
    · rw [show l.length - (l.length - N) + 1 - N = 1 by omega]
      rw [List.drop_append_of_le_length
            (by rw [List.length_drop, List.length_map]; omega),
        List.drop_drop,
        List.drop_append_of_le_length (by rw [List.length_map]; omega)]
      rw [show l.length - N + 1 = l.length + 1 - N by omega]

/-- The cursor after a non-empty call sequence on a fresh positive-capacity
buffer is `(count - 1) mod N`. -/
theorem addAll_current_index {α : Type} (N : Nat) (hN : 1 ≤ N)
    (calls : List (String × α)) (hne : calls ≠ []) :
    (addAll (init N : TemporalBuffer α) calls).current_index
      = ((calls.length : Int) - 1) % (N : Int) := by
  induction calls using List.reverseRecOn with
  | nil => exact absurd rfl hne
  | append_singleton l c ih =>
    rw [addAll_append]
    have hmax : (addAll (init N : TemporalBuffer α) l).maxlen = N :=
      addAll_maxlen _ _
    have hbuf := addAll_buffer N hN l
    have hlen : (addAll (init N : TemporalBuffer α) l).buffer.length
        = l.length - (l.length - N) := by
      rw [hbuf, List.length_drop, List.length_map]
    by_cases hl : l = []
    · subst hl
      show (if _ = _ then _ else _) = _
      rw [hlen, hmax]
      simp only [List.length_nil]
      rw [if_neg (by omega)]
      simp [addAll, init]
    · have hcur := ih hl
      have hlpos : 1 ≤ l.length := List.length_pos.mpr hl
      show (if _ = _ then _ else _) = _
      rw [hlen, hmax, hcur]
      rcases Nat.lt_or_ge l.length N with h | h
      · rw [if_neg (by omega)]
        rw [Int.emod_eq_of_lt (by omega) (by omega)]
        simp only [List.length_append, List.length_cons, List.length_nil]
        rw [Int.emod_eq_of_lt (by omega) (by push_cast; omega)]
        push_cast
        omega
      · rw [if_pos (by omega)]
        rw [Int.emod_add_emod]
        simp only [List.length_append, List.length_cons, List.length_nil]
        congr 1
        push_cast
        omega

/-- C7: on a fresh buffer of capacity `N ≥ 1`, `current_index` is `-1`
after construction and equals `(k - 1) mod N` after the `k`-th `add`.  Every
read operation of the embedding (`getitem`, `current`, `get_last_n_states`,
`call`, `length`) is a pure function of the state, so reads cannot modify
the cursor. -/
theorem C7_current_index_evolution {α : Type} (N : Nat) (hN : 1 ≤ N)
    (calls : List (String × α)) :
    (init N : TemporalBuffer α).current_index = -1 ∧
    (calls ≠ [] →
       (addAll (init N : TemporalBuffer α) calls).current_index
         = ((calls.length : Int) - 1) % (N : Int)) :=
  ⟨rfl, addAll_current_index N hN calls⟩

/-- Witness for C7: four adds at capacity 3 leave the cursor at
`(4 - 1) mod 3 = 0`. -/
theorem C7_witness :
    1 ≤ 3 ∧
    ((init 3 : TemporalBuffer Nat).current_index = -1 ∧
     ([("id1", (10 : Nat)), ("id2", 20), ("id3", 30), ("id4", 40)] ≠
         ([] : List (String × Nat)) →
       (addAll (init 3)
           [("id1", (10 : Nat)), ("id2", 20), ("id3", 30), ("id4", 40)]).current_index
         = ((4 : Int) - 1) % (3 : Int))) := by
  have h := C7_current_index_evolution 3 (by decide)
    [("id1", (10 : Nat)), ("id2", 20), ("id3", 30), ("id4", 40)]
  exact ⟨by decide, h.1, fun _ => h.2 (by decide)⟩

/-- A key held by some entry makes the membership scan succeed. -/
theorem ld_any_of_mem {α : Type} (d : List (String × α)) (k : String)
    (h : k ∈ d.map Prod.fst) : d.any (fun p => p.1 == k) = true := by
  rw [List.any_eq_true]
  obtain ⟨p, hp, hpk⟩ := List.mem_map.mp h
  exact ⟨p, hp, by simp [hpk]⟩

/-- C8: `__setitem__` (set_index_entry) and `__delitem__` (delete_index_entry,
on a present key) mutate only the id index: the deque, its capacity and
`current_index` are unchanged, and every positional read returns exactly what
it returned before the key was deleted. -/
theorem C8_index_only_mutation {α : Type} (b : TemporalBuffer α) (k : String)
    (v : α) (hpres : k ∈ b.id_index.map Prod.fst) :
    ((setitem b k v).buffer = b.buffer ∧
     (setitem b k v).current_index = b.current_index ∧
     (setitem b k v).maxlen = b.maxlen) ∧
    (∃ b2, delitem b k = OpResult.ok b2 ∧
       b2.buffer = b.buffer ∧
       b2.current_index = b.current_index ∧
       b2.maxlen = b.maxlen ∧
       (∀ i : Int, getitem b2 (Key.int i) = getitem b (Key.int i))) := by
  refine ⟨⟨rfl, rfl, rfl⟩, ?_⟩
  refine ⟨{ b with id_index := b.id_index.eraseP (fun p => p.1 == k) },
    ?_, rfl, rfl, rfl, fun i => rfl⟩
  simp only [delitem, LimitedDict.delete, ld_any_of_mem b.id_index k hpres,
    if_true]

/-- Witness for C8 at the spec example with the retained key "id2": the
delete leaves the deque intact, so positional reads still see the record. -/
theorem C8_witness :
    ("id2" ∈ sample.id_index.map Prod.fst) ∧
    (((setitem sample "id2" 99).buffer = sample.buffer ∧
      (setitem sample "id2" 99).current_index = sample.current_index ∧
      (setitem sample "id2" 99).maxlen = sample.maxlen) ∧
     (∃ b2, delitem sample "id2" = OpResult.ok b2 ∧
        b2.buffer = sample.buffer ∧
        b2.current_index = sample.current_index ∧
        b2.maxlen = sample.maxlen ∧
        (∀ i : Int, getitem b2 (Key.int i) = getitem sample (Key.int i)))) :=
  ⟨by decide, C8_index_only_mutation sample "id2" 99 (by decide)⟩

/-- A key held by no entry makes the membership scan fail. -/
theorem ld_any_eq_false {α : Type} (d : List (String × α)) (k : String)
    (h : k ∉ d.map Prod.fst) : d.any (fun p => p.1 == k) = false := by
  rw [List.any_eq_false]
  intro p hp
  simp only [beq_iff_eq]
  intro hpk
  exact h (List.mem_map.mpr ⟨p, hp, hpk⟩)

/-- Lookup in an association list with pairwise-distinct keys finds exactly
the entry that is a member. -/
theorem ld_get_mem {α : Type} (d : List (String × α))
    (hnd : (d.map Prod.fst).Nodup) (p : String × α) (hp : p ∈ d) :
    LimitedDict.get d p.1 = some p.2 := by
  induction d with
  | nil => cases hp
  | cons q d ih =>
    rw [List.map_cons, List.nodup_cons] at hnd
    rcases List.mem_cons.mp hp with he | hm
    · subst he
      simp [LimitedDict.get, List.find?_cons]
    · have hq : (q.1 == p.1) = false := by
        rw [beq_eq_false_iff_ne]
        intro he
        exact hnd.1 (he ▸ List.mem_map.mpr ⟨p, hm, rfl⟩)
      rw [LimitedDict.get, List.find?_cons, hq]
      exact ih hnd.2 hm

/-- Indexing into a dropped suffix is indexing into the original list. -/
theorem get_drop_eq {α : Type} (l : List α) (k i : Nat) (hk : k ≤ i)
    (hi : i < l.length) (hj : i - k < (l.drop k).length) :
    (l.drop k).get ⟨i - k, hj⟩ = l.get ⟨i, hi⟩ := by
  simp only [List.get_eq_getElem, List.getElem_drop]
  congr 1
  omega

/-- Congruence for `List.get` over equal lists and equal indices. -/
theorem get_congr {α : Type} {l l' : List α} {j j' : Nat}
    (h : l = l') (hjj : j = j') (hj : j < l.length) (hj' : j' < l'.length) :
    l.get ⟨j, hj⟩ = l'.get ⟨j', hj'⟩ := by
  subst h
  subst hjj
  rfl

/-- The prefix evicted by a drop is disjoint from the kept suffix when the
whole list has no duplicates. -/
theorem nodup_take_drop_disjoint {α : Type} (l : List α) (k : Nat)
    (hnd : l.Nodup) : (l.take k).Disjoint (l.drop k) := by
  rw [← List.take_append_drop k l] at hnd
  exact (List.nodup_append.mp hnd).2.2

/-- After a call sequence with pairwise-distinct ids on a fresh
positive-capacity buffer, the id index holds exactly the most recent
`min count N` calls, in insertion order — lockstep with the deque. -/
theorem addAll_id_index {α : Type} (N : Nat) (hN : 1 ≤ N)
    (calls : List (String × α)) (hnd : (calls.map Prod.fst).Nodup) :
    (addAll (init N : TemporalBuffer α) calls).id_index
      = calls.drop (calls.length - N) := by
  induction calls using List.reverseRecOn with
  | nil => simp [addAll, init]
  | append_singleton l c ih =>
    rw [List.map_append] at hnd
    have hnd' : (l.map Prod.fst).Nodup := (List.nodup_append.mp hnd).1
    have hdisj := (List.nodup_append.mp hnd).2.2
    have hnotmem : c.1 ∉ l.map Prod.fst := fun hmem => hdisj hmem (by simp)
    rw [addAll_append]
    have hmax : (addAll (init N : TemporalBuffer α) l).maxlen = N :=
      addAll_maxlen _ _
    show LimitedDict.set _ _ _ _ = _
    rw [LimitedDict.set, hmax, ih hnd']
    have hnm2 : c.1 ∉ (l.drop (l.length - N)).map Prod.fst := by
      rw [List.map_drop]
      exact fun hmem => hnotmem (List.mem_of_mem_drop hmem)
    simp only [ld_any_eq_false _ _ hnm2, Bool.false_eq_true, if_false]
    rw [List.length_drop]
    simp only [List.length_append, List.length_singleton]
    rcases Nat.lt_or_ge l.length N with h | h
    · rw [if_neg (by omega)]
      rw [show l.length - N = 0 by omega, show l.length + 1 - N = 0 by omega]
      simp
    · rw [if_pos (by omega)]
      rw [List.drop_drop,
        List.drop_append_of_le_length (by omega)]
      rw [show l.length - N + 1 = l.length + 1 - N by omega]

/-- In-range integer read, specialised to a natural-number distance. -/
theorem getitem_int_nat {α : Type} (b : TemporalBuffer α) (d : Nat)
    (hd : d < b.buffer.length) :
    getitem b (Key.int (d : Int))
      = GetItemResult.val (b.buffer.get ⟨b.buffer.length - 1 - d, by omega⟩) := by
  have h := getitem_int_eq b (d : Int) (by simpa using hd)
  simpa using h

/-- C1: for every sequence of `add` calls with pairwise-distinct ids on a
fresh buffer of capacity `N ≥ 1`: the length is `min count N`; the deque
holds exactly the most recent `min count N` records in insertion order;
string lookup of a still-retained id returns the identical record that
positional lookup returns for that same insertion; and string lookup of an
evicted id returns the absence sentinel `None`. -/
theorem C1_dual_container_consistency {α : Type} (N : Nat) (hN : 1 ≤ N)
    (calls : List (String × α)) (hnd : (calls.map Prod.fst).Nodup) :
    (addAll (init N : TemporalBuffer α) calls).buffer.length
      = min calls.length N ∧
    (addAll (init N : TemporalBuffer α) calls).buffer
      = (calls.map Prod.snd).drop (calls.length - N) ∧
    (∀ i : Nat, (hi : i < calls.length) → calls.length - N ≤ i →
       getitem (addAll (init N : TemporalBuffer α) calls)
           (Key.str (calls.get ⟨i, hi⟩).1)
         = GetItemResult.val (calls.get ⟨i, hi⟩).2 ∧
       getitem (addAll (init N : TemporalBuffer α) calls)
           (Key.int ((calls.length - 1 - i : Nat) : Int))
         = GetItemResult.val (calls.get ⟨i, hi⟩).2) ∧
    (∀ i : Nat, (hi : i < calls.length) → i < calls.length - N →
       getitem (addAll (init N : TemporalBuffer α) calls)
           (Key.str (calls.get ⟨i, hi⟩).1)
         = GetItemResult.noneVal) := by
  have hbuf := addAll_buffer N hN calls
  have hidx := addAll_id_index N hN calls hnd
  have hlen : (addAll (init N : TemporalBuffer α) calls).buffer.length
      = min calls.length N := by
    rw [hbuf, List.length_drop, List.length_map]
    omega
  refine ⟨hlen, hbuf, ?_, ?_⟩
  · intro i hi hret
    constructor
    · have hj2 : i - (calls.length - N)
          < (calls.drop (calls.length - N)).length := by
        rw [List.length_drop]
        omega
      have hmem : calls.get ⟨i, hi⟩ ∈ calls.drop (calls.length - N) := by
        rw [← get_drop_eq calls (calls.length - N) i hret hi hj2]
        exact List.get_mem _ _ _
      have hnd2 : ((calls.drop (calls.length - N)).map Prod.fst).Nodup := by
        rw [List.map_drop]
        exact List.Nodup.sublist (List.drop_sublist _ _) hnd
      have hget := ld_get_mem _ hnd2 _ hmem
      simp only [getitem, hidx, hget]
    · have hd : (calls.length - 1 - i)
          < (addAll (init N : TemporalBuffer α) calls).buffer.length := by
        rw [hlen]
        omega
      rw [getitem_int_nat _ _ hd]
      refine congrArg GetItemResult.val ?_
      have hj2 : i - (calls.length - N)
          < ((calls.map Prod.snd).drop (calls.length - N)).length := by
        rw [List.length_drop, List.length_map]
        omega
      have hi2 : i < (calls.map Prod.snd).length := by
        rw [List.length_map]
        exact hi
      calc (addAll (init N : TemporalBuffer α) calls).buffer.get
            ⟨(addAll (init N : TemporalBuffer α) calls).buffer.length - 1
               - (calls.length - 1 - i), by omega⟩
          = ((calls.map Prod.snd).drop (calls.length - N)).get
              ⟨i - (calls.length - N), hj2⟩ := by
            refine get_congr hbuf ?_ _ hj2
            rw [hlen]
            omega
        _ = (calls.map Prod.snd).get ⟨i, hi2⟩ :=
            get_drop_eq _ _ _ (by omega) hi2 hj2
        _ = (calls.get ⟨i, hi⟩).2 := by
            simp
  · intro i hi hev
    have hti : i < ((calls.map Prod.fst).take (calls.length - N)).length := by
      rw [List.length_take, List.length_map]
      omega
    have hkey_take : (calls.get ⟨i, hi⟩).1
        ∈ (calls.map Prod.fst).take (calls.length - N) := by
      have heq : ((calls.map Prod.fst).take (calls.length - N)).get ⟨i, hti⟩
          = (calls.get ⟨i, hi⟩).1 := by
        simp only [List.get_eq_getElem, List.getElem_take, List.getElem_map]
      rw [← heq]
      exact List.get_mem _ _ _
    have hnotin : (calls.get ⟨i, hi⟩).1
        ∉ (calls.drop (calls.length - N)).map Prod.fst := by
      rw [List.map_drop]
      intro hmem
      exact nodup_take_drop_disjoint (calls.map Prod.fst) (calls.length - N)
        hnd hkey_take hmem
    have hnone := ld_get_of_not_mem _ _ hnotin
    simp only [getitem, hidx, hnone]

/-- Witness for C1 at the spec's capacity-3, four-add example: length 3,
"id2" retained and consistent between the two access modes, "id1" evicted. -/
theorem C1_witness :
    (addAll (init 3 : TemporalBuffer Nat)
        [("id1", 10), ("id2", 20), ("id3", 30), ("id4", 40)]).buffer.length
      = min 4 3 ∧
    getitem (addAll (init 3 : TemporalBuffer Nat)
        [("id1", 10), ("id2", 20), ("id3", 30), ("id4", 40)]) (Key.str "id2")
      = GetItemResult.val 20 ∧
    getitem (addAll (init 3 : TemporalBuffer Nat)
        [("id1", 10), ("id2", 20), ("id3", 30), ("id4", 40)]) (Key.int 2)
      = GetItemResult.val 20 ∧
    getitem (addAll (init 3 : TemporalBuffer Nat)
        [("id1", 10), ("id2", 20), ("id3", 30), ("id4", 40)]) (Key.str "id1")
      = GetItemResult.noneVal := by
  have h := C1_dual_container_consistency 3 (by decide)
    [("id1", (10 : Nat)), ("id2", 20), ("id3", 30), ("id4", 40)] (by decide)
  have hr := h.2.2.1 1 (by decide) (by decide)
  have he := h.2.2.2 0 (by decide) (by decide)
  exact ⟨h.1, hr.1, hr.2, he⟩

end TemporalDict
